import Mathlib

/-!
Shallow embedding of the `lcr.py` cache-eviction policy library.

Modelling conventions:
* `CacheKey` is `String` (the Python code declares `CacheKey = NewType("CacheKey", str)`).
* Python's insertion-ordered `Counter` is an association list `List (CacheKey × Nat)`
  kept in insertion order; `c[key] += 1` updates in place (keeping position) or
  appends a fresh entry with count 1 at the end, exactly as a Python dict does.
* Python's `min(items, key=itemgetter(1))` is a left fold that replaces the current
  best only on a strictly smaller count, hence returns the earliest minimal entry.
* Fallible operations are `Option`-valued: `hitrate` is `none` when the Python code
  would raise `ZeroDivisionError`, construction is `none` when the `assert budget > 0`
  fails.
* Floats are modelled by exact rationals.  The constant `math.exp(0.45)` is an
  abstract positive rational parameter `c` threaded through the LCR operations.
* The single random tie-break (`random.choice` in `select_policy_and_history`)
  is an explicit `Bool` coin passed to each LCR access: `true` picks the LRU arm
  (the first element of the Python two-element list), `false` the LFU arm.
-/

abbrev CacheKey := String

/-- Python `Counter.__getitem__`: count of `k` in the ordered table, `0` if absent. -/
def lookupCount (k : CacheKey) : List (CacheKey × Nat) → Nat
  | [] => 0
  | p :: ps => if p.1 = k then p.2 else lookupCount k ps

/-- Python `self.frequency_counter[key] += 1`: increment in place keeping the
entry's position, or append a fresh `(key, 1)` entry at the end (dicts preserve
insertion order). -/
def incrCount (k : CacheKey) : List (CacheKey × Nat) → List (CacheKey × Nat)
  | [] => [(k, 1)]
  | p :: ps => if p.1 = k then (p.1, p.2 + 1) :: ps else p :: incrCount k ps

/-- Python `del self.frequency_counter[k]`: drop the (unique) entry with key `k`. -/
def eraseKey (k : CacheKey) : List (CacheKey × Nat) → List (CacheKey × Nat)
  | [] => []
  | p :: ps => if p.1 = k then ps else p :: eraseKey k ps

/-- The loop of Python's `min(..., key=itemgetter(1))`: keep the current best,
replacing it only when a later item has a strictly smaller count. -/
def minAcc (best : CacheKey × Nat) : List (CacheKey × Nat) → CacheKey × Nat
  | [] => best
  | y :: ys => minAcc (if y.2 < best.2 then y else best) ys

/-- Python `min(self.frequency_counter.items(), key=itemgetter(1))`:
the earliest entry with minimal count; `none` on an empty table (Python would
raise `ValueError`, which never happens in this program). -/
def minByCount : List (CacheKey × Nat) → Option (CacheKey × Nat)
  | [] => none
  | x :: xs => some (minAcc x xs)

/-- `class LFU(CachePolicy)`: budget, hit/access counters, insertion-ordered
frequency table. -/
structure LFU where
  budget : Nat
  hits : Nat
  accesses : Nat
  frequency_counter : List (CacheKey × Nat)
  deriving DecidableEq, Repr

/-- `LFU.__init__` composed with `CachePolicy.__init__`: `assert budget > 0`
(an `AssertionError` is modelled as `none`), counters zero, empty table. -/
def LFU.init (budget : Int) : Option LFU :=
  if 0 < budget then
    some { budget := budget.toNat, hits := 0, accesses := 0, frequency_counter := [] }
  else none

/-- `LFU.__contains__`: `self.frequency_counter[item] > 0`. -/
def LFU.mem (s : LFU) (k : CacheKey) : Bool :=
  0 < lookupCount k s.frequency_counter

/-- `LFU.access`: bump counters, increment the key's count, and when the table
exceeds the budget evict the earliest minimal-count key. -/
def LFU.access (s : LFU) (key : CacheKey) : LFU × Option CacheKey :=
  let accesses := s.accesses + 1
  let hits := if s.mem key then s.hits + 1 else s.hits
  let table := incrCount key s.frequency_counter
  if s.budget < table.length then
    match minByCount table with
    | some (least_frequent_key, _) =>
        ({ budget := s.budget, hits := hits, accesses := accesses,
           frequency_counter := eraseKey least_frequent_key table },
         some least_frequent_key)
    | none =>
        ({ budget := s.budget, hits := hits, accesses := accesses,
           frequency_counter := table }, none)
  else
    ({ budget := s.budget, hits := hits, accesses := accesses,
       frequency_counter := table }, none)

/-- `class LRU(CachePolicy)`: budget, counters, recency list (head = most recent). -/
structure LRU where
  budget : Nat
  hits : Nat
  accesses : Nat
  recency_list : List CacheKey
  deriving DecidableEq, Repr

/-- `LRU.__init__` composed with `CachePolicy.__init__`. -/
def LRU.init (budget : Int) : Option LRU :=
  if 0 < budget then
    some { budget := budget.toNat, hits := 0, accesses := 0, recency_list := [] }
  else none

/-- `LRU.__contains__`: `item in self.recency_list`. -/
def LRU.mem (s : LRU) (k : CacheKey) : Bool :=
  s.recency_list.contains k

/-- `LRU.access`: bump counters, move the key to the head (`remove` ignores a
missing key), and pop the tail when over budget. -/
def LRU.access (s : LRU) (key : CacheKey) : LRU × Option CacheKey :=
  let accesses := s.accesses + 1
  let hits := if s.mem key then s.hits + 1 else s.hits
  let l := key :: s.recency_list.erase key
  if s.budget < l.length then
    ({ budget := s.budget, hits := hits, accesses := accesses,
       recency_list := l.dropLast }, l.getLast?)
  else
    ({ budget := s.budget, hits := hits, accesses := accesses,
       recency_list := l }, none)

/-- `CachePolicy.hitrate`: `float(self.hits) * 100 / self.accesses`; Python raises
`ZeroDivisionError` when `accesses == 0`, modelled as `none`. -/
def hitrateOf (hits accesses : Nat) : Option ℚ :=
  if accesses = 0 then none else some ((hits : ℚ) * 100 / (accesses : ℚ))

def LFU.hitrate (s : LFU) : Option ℚ := hitrateOf s.hits s.accesses
def LRU.hitrate (s : LRU) : Option ℚ := hitrateOf s.hits s.accesses

/-- The two arms of the hybrid policy; `LCR.select_policy_and_history` picks one. -/
inductive Arm where
  | lru : Arm
  | lfu : Arm
  deriving DecidableEq, Repr

/-- `class LCR(CachePolicy)`: counters, the two eviction-history logs, the two
sub-policies sharing the budget, and the adaptive weights (exact rationals). -/
structure LCR where
  budget : Nat
  hits : Nat
  accesses : Nat
  history_lfu : List CacheKey
  history_lru : List CacheKey
  lfu_policy : LFU
  lru_policy : LRU
  w_lfu : ℚ
  w_lru : ℚ
  deriving DecidableEq, Repr

/-- `LCR.__init__`: `assert budget > 0` (also re-checked by the two arm
constructors), empty histories, fresh arms, weights `0.5 / 0.5`. -/
def LCR.init (budget : Int) : Option LCR :=
  if 0 < budget then
    some { budget := budget.toNat, hits := 0, accesses := 0,
           history_lfu := [], history_lru := [],
           lfu_policy := { budget := budget.toNat, hits := 0, accesses := 0,
                           frequency_counter := [] },
           lru_policy := { budget := budget.toNat, hits := 0, accesses := 0,
                           recency_list := [] },
           w_lfu := 1/2, w_lru := 1/2 }
  else none

/-- `LCR.__contains__`: `key in self.lfu_policy or key in self.lru_policy`. -/
def LCR.mem (s : LCR) (k : CacheKey) : Bool :=
  s.lfu_policy.mem k || s.lru_policy.mem k

/-- `LCR.update_weight`: multiplicative regret update followed by
renormalization.  `c` stands for `math.exp(learning_rate)` with
`learning_rate = 0.45`, a constant `> 1`. -/
def LCR.update_weight (c : ℚ) (s : LCR) (key : CacheKey) : LCR :=
  let w_lfu := if s.history_lru.contains key then s.w_lfu * c else s.w_lfu
  let w_lru :=
    if s.history_lru.contains key then s.w_lru
    else if s.history_lfu.contains key then s.w_lru * c
    else s.w_lru
  let w_lru2 := w_lru / (w_lru + w_lfu)
  { s with w_lru := w_lru2, w_lfu := 1 - w_lru2 }

/-- `LCR.select_policy_and_history`: larger weight wins; an exact tie is broken
by `random.choice`, modelled by the explicit `coin` (`true` = LRU arm, the
first element of the Python list). -/
def LCR.select_policy_and_history (coin : Bool) (s : LCR) : Arm :=
  if s.w_lfu < s.w_lru then Arm.lru
  else if s.w_lru < s.w_lfu then Arm.lfu
  else if coin then Arm.lru else Arm.lfu

/-- The history push of `LCR.access`: `if len(history) >= self.budget:
history.pop()` then `history.insert(0, key)`. -/
def pushHistory (budget : Nat) (h : List CacheKey) (k : CacheKey) : List CacheKey :=
  k :: (if budget ≤ h.length then h.dropLast else h)

/-- `LCR.access`: on a hit delegate to the arm that holds the key (frequency arm
first) and return its result; on a miss update the weights, delegate to the
selected arm, record a truthy evicted key in that arm's history, and fall
through returning `None`.  Python's `if maybe_evicted:` is a truthiness test,
so an evicted empty-string key is not recorded. -/
def LCR.access (c : ℚ) (coin : Bool) (s : LCR) (key : CacheKey) : LCR × Option CacheKey :=
  let accesses := s.accesses + 1
  if s.mem key then
    let hits := s.hits + 1
    if s.lfu_policy.mem key then
      let res := s.lfu_policy.access key
      ({ s with accesses := accesses, hits := hits, lfu_policy := res.1 }, res.2)
    else if s.lru_policy.mem key then
      let res := s.lru_policy.access key
      ({ s with accesses := accesses, hits := hits, lru_policy := res.1 }, res.2)
    else
      ({ s with accesses := accesses, hits := hits }, none)
  else
    let s1 := { s.update_weight c key with accesses := accesses }
    match s1.select_policy_and_history coin with
    | Arm.lru =>
        let res := s1.lru_policy.access key
        let s2 := { s1 with lru_policy := res.1 }
        match res.2 with
        | some k =>
            if k = "" then (s2, none)
            else ({ s2 with history_lru := pushHistory s2.budget s2.history_lru k }, none)
        | none => (s2, none)
    | Arm.lfu =>
        let res := s1.lfu_policy.access key
        let s2 := { s1 with lfu_policy := res.1 }
        match res.2 with
        | some k =>
            if k = "" then (s2, none)
            else ({ s2 with history_lfu := pushHistory s2.budget s2.history_lfu k }, none)
        | none => (s2, none)

def LCR.hitrate (s : LCR) : Option ℚ := hitrateOf s.hits s.accesses

/-- Fold an access trace through an LFU instance, collecting the evictions. -/
def LFU.run (s : LFU) : List CacheKey → LFU × List (Option CacheKey)
  | [] => (s, [])
  | k :: ks =>
      let step := s.access k
      let rest := step.1.run ks
      (rest.1, step.2 :: rest.2)

/-- Fold an access trace through an LRU instance, collecting the evictions. -/
def LRU.run (s : LRU) : List CacheKey → LRU × List (Option CacheKey)
  | [] => (s, [])
  | k :: ks =>
      let step := s.access k
      let rest := step.1.run ks
      (rest.1, step.2 :: rest.2)

/-- Fold an access trace (keys paired with tie-break coins) through an LCR
instance. -/
def LCR.run (c : ℚ) (s : LCR) : List (CacheKey × Bool) → LCR
  | [] => s
  | k :: ks => LCR.run c (LCR.access c k.2 s k.1).1 ks

/-- Modelled from the spec (§4.4 step 3a) for the refinement claim about
`update_weight`: if the key appears in `history_lru` multiply `w_lfu` by the
constant, else if it appears in `history_lfu` multiply `w_lru`, else no
multiplicative update; then renormalize `w_lru := w_lru / (w_lru + w_lfu)`,
`w_lfu := 1 - w_lru`.  Returns the pair `(w_lfu, w_lru)`. -/
def updateWeightSpec (c : ℚ) (key : CacheKey) (history_lfu history_lru : List CacheKey)
    (w_lfu w_lru : ℚ) : ℚ × ℚ :=
  let step :=
    if history_lru.contains key then (w_lfu * c, w_lru)
    else if history_lfu.contains key then (w_lfu, w_lru * c)
    else (w_lfu, w_lru)
  let w_lru2 := step.2 / (step.2 + step.1)
  (1 - w_lru2, w_lru2)

/-- The freshly constructed LCR instance of budget 1 (the value of `LCR.init 1`). -/
def lcrB1 : LCR :=
  { budget := 1, hits := 0, accesses := 0, history_lfu := [], history_lru := [],
    lfu_policy := { budget := 1, hits := 0, accesses := 0, frequency_counter := [] },
    lru_policy := { budget := 1, hits := 0, accesses := 0, recency_list := [] },
    w_lfu := 1/2, w_lru := 1/2 }

/-- Every count stored in a frequency table is positive; holds for all reachable
LFU tables (a fresh entry starts at 1 and counts only grow). -/
def PosCounts (t : List (CacheKey × Nat)) : Prop :=
  ∀ p ∈ t, 0 < p.2

/-- Structural size invariant of an LCR instance: positive budget shared with
both arms, and every resident structure within budget. -/
def LCR.SizeInv (s : LCR) : Prop :=
  1 ≤ s.budget ∧ s.lfu_policy.budget = s.budget ∧ s.lru_policy.budget = s.budget ∧
  s.history_lfu.length ≤ s.budget ∧ s.history_lru.length ≤ s.budget ∧
  s.lfu_policy.frequency_counter.length ≤ s.budget ∧
  s.lru_policy.recency_list.length ≤ s.budget

/-- Arm-disjointness invariant of an LCR instance: the frequency table has only
positive counts and no key is simultaneously present in both arms. -/
def LCR.DisjInv (s : LCR) : Prop :=
  PosCounts s.lfu_policy.frequency_counter ∧
  ∀ x, ¬(s.lfu_policy.mem x = true ∧ s.lru_policy.mem x = true)

/-- Weight invariant of an LCR instance: both weights strictly positive and
summing to exactly 1. -/
def LCR.WeightInv (s : LCR) : Prop :=
  0 < s.w_lfu ∧ 0 < s.w_lru ∧ s.w_lfu + s.w_lru = 1

/-- A reachable LFU state of budget 2 (after the trace `a, b, a`), about to
evict on the next fresh key. -/
def lfuSampleEvict : LFU :=
  { budget := 2, hits := 1, accesses := 3, frequency_counter := [("a", 2), ("b", 1)] }

/-- An LCR state of budget 1 whose `history_lru` already records an eviction of
`"x"`, used to exercise the regret branch of the weight update. -/
def lcrSampleHist : LCR :=
  { budget := 1, hits := 0, accesses := 2, history_lfu := [], history_lru := ["x"],
    lfu_policy := { budget := 1, hits := 0, accesses := 0, frequency_counter := [] },
    lru_policy := { budget := 1, hits := 0, accesses := 2, recency_list := ["b"] },
    w_lfu := 1/2, w_lru := 1/2 }

theorem incrCount_ne_nil (k : CacheKey) (t : List (CacheKey × Nat)) :
    incrCount k t ≠ [] := by
  cases t with
  | nil => simp [incrCount]
  | cons p ps => simp only [incrCount]; split <;> simp

theorem length_incrCount_le (k : CacheKey) (t : List (CacheKey × Nat)) :
    (incrCount k t).length ≤ t.length + 1 := by
  induction t with
  | nil => simp [incrCount]
  | cons p ps ih =>
    simp only [incrCount]
    split
    · simp
    · simp only [List.length_cons]
      omega

/-- The running minimum of Python's `min(..., key=itemgetter(1))` either keeps
the initial best (which is then a lower bound) or lands on an element that is
strictly below the initial best, strictly below everything before it, and at
most everything after it. -/
theorem minAcc_split (xs : List (CacheKey × Nat)) (best : CacheKey × Nat) :
    (minAcc best xs = best ∧ ∀ p ∈ xs, best.2 ≤ p.2) ∨
    ((minAcc best xs).2 < best.2 ∧
      ∃ l₁ l₂, xs = l₁ ++ minAcc best xs :: l₂ ∧
        (∀ p ∈ l₁, (minAcc best xs).2 < p.2) ∧
        (∀ p ∈ l₂, (minAcc best xs).2 ≤ p.2)) := by
  induction xs generalizing best with
  | nil => exact Or.inl ⟨rfl, by simp⟩
  | cons y ys ih =>
    by_cases hy : y.2 < best.2
    · have hstep : minAcc best (y :: ys) = minAcc y ys := by
        have h0 : minAcc best (y :: ys) = minAcc (if y.2 < best.2 then y else best) ys := rfl
        rw [h0, if_pos hy]
      rcases ih y with ⟨heq, hall⟩ | ⟨hlt, l₁, l₂, hsplit, h₁, h₂⟩
      · refine Or.inr ?_
        rw [hstep, heq]
        exact ⟨hy, [], ys, by simp, by simp, hall⟩
      · refine Or.inr ?_
        rw [hstep]
        generalize hgen : minAcc y ys = m at hsplit h₁ h₂ hlt ⊢
        refine ⟨lt_trans hlt hy, y :: l₁, l₂, by rw [hsplit]; rfl, ?_, h₂⟩
        intro p hp
        rcases List.mem_cons.mp hp with rfl | hp
        · exact hlt
        · exact h₁ p hp
    · have hstep : minAcc best (y :: ys) = minAcc best ys := by
        have h0 : minAcc best (y :: ys) = minAcc (if y.2 < best.2 then y else best) ys := rfl
        rw [h0, if_neg hy]
      rcases ih best with ⟨heq, hall⟩ | ⟨hlt, l₁, l₂, hsplit, h₁, h₂⟩
      · refine Or.inl ?_
        rw [hstep, heq]
        refine ⟨rfl, ?_⟩
        intro p hp
        rcases List.mem_cons.mp hp with rfl | hp
        · exact Nat.le_of_not_lt hy
        · exact hall p hp
      · refine Or.inr ?_
        rw [hstep]
        generalize hgen : minAcc best ys = m at hsplit h₁ h₂ hlt ⊢
        refine ⟨hlt, y :: l₁, l₂, by rw [hsplit]; rfl, ?_, h₂⟩
        intro p hp
        rcases List.mem_cons.mp hp with rfl | hp
        · exact lt_of_lt_of_le hlt (Nat.le_of_not_lt hy)
        · exact h₁ p hp

/-- Python's `min(items, key=itemgetter(1))` returns an entry of minimal count,
and every entry strictly before it in the list has a strictly larger count
(i.e. it is the earliest entry attaining the minimum). -/
theorem minByCount_min (t : List (CacheKey × Nat)) (m : CacheKey × Nat)
    (h : minByCount t = some m) :
    (∃ l₁ l₂, t = l₁ ++ m :: l₂ ∧ ∀ p ∈ l₁, m.2 < p.2) ∧ (∀ p ∈ t, m.2 ≤ p.2) := by
  cases t with
  | nil => simp [minByCount] at h
  | cons x xs =>
    have hm : m = minAcc x xs := by
      have h' : some (minAcc x xs) = some m := h
      exact (Option.some_inj.mp h').symm
    rcases minAcc_split xs x with ⟨heq, hall⟩ | ⟨hlt, l₁, l₂, hsplit, h₁, h₂⟩
    · subst hm
      rw [heq]
      refine ⟨⟨[], xs, by simp [heq], by simp⟩, ?_⟩
      intro p hp
      rcases List.mem_cons.mp hp with rfl | hp
      · exact le_refl _
      · exact hall p hp
    · subst hm
      generalize hgen : minAcc x xs = m at hsplit h₁ h₂ hlt ⊢
      refine ⟨⟨x :: l₁, l₂, by rw [hsplit]; rfl, ?_⟩, ?_⟩
      · intro p hp
        rcases List.mem_cons.mp hp with rfl | hp
        · exact hlt
        · exact h₁ p hp
      · intro p hp
        rcases List.mem_cons.mp hp with rfl | hp
        · exact le_of_lt hlt
        · rw [hsplit] at hp
          rcases List.mem_append.mp hp with hp | hp
          · exact le_of_lt (h₁ p hp)
          · rcases List.mem_cons.mp hp with rfl | hp
            · exact le_refl _
            · exact h₂ p hp

theorem minByCount_mem (t : List (CacheKey × Nat)) (m : CacheKey × Nat)
    (h : minByCount t = some m) : m ∈ t := by
  rcases (minByCount_min t m h).1 with ⟨l₁, l₂, hsplit, -⟩
  rw [hsplit]
  simp

theorem eraseKey_sublist (k : CacheKey) (t : List (CacheKey × Nat)) :
    (eraseKey k t).Sublist t := by
  induction t with
  | nil => simp [eraseKey]
  | cons p ps ih =>
    simp only [eraseKey]
    split
    · exact List.sublist_cons_self p ps
    · exact ih.cons₂ p

theorem length_eraseKey_of_mem (k : CacheKey) (t : List (CacheKey × Nat))
    (h : k ∈ t.map Prod.fst) : (eraseKey k t).length + 1 = t.length := by
  induction t with
  | nil => simp at h
  | cons p ps ih =>
    by_cases hp : p.1 = k
    · simp [eraseKey, hp]
    · have hk : k ∈ ps.map Prod.fst := by
        rcases List.mem_map.mp h with ⟨q, hq, hqk⟩
        rcases List.mem_cons.mp hq with rfl | hq
        · exact absurd hqk hp
        · exact List.mem_map.mpr ⟨q, hq, hqk⟩
      simp [eraseKey, hp, ih hk]

theorem minByCount_eq_none (t : List (CacheKey × Nat)) (h : minByCount t = none) :
    t = [] := by
  cases t with
  | nil => rfl
  | cons x xs => simp [minByCount] at h

theorem lookupCount_pos_iff (x : CacheKey) (t : List (CacheKey × Nat)) (h : PosCounts t) :
    (0 < lookupCount x t) ↔ x ∈ t.map Prod.fst := by
  induction t with
  | nil => simp [lookupCount]
  | cons p ps ih =>
    by_cases hp : p.1 = x
    · simp only [lookupCount, if_pos hp, List.map_cons, List.mem_cons]
      constructor
      · intro _
        exact Or.inl hp.symm
      · intro _
        exact h p (List.mem_cons_self p ps)
    · simp only [lookupCount, if_neg hp, List.map_cons, List.mem_cons]
      rw [ih (fun q hq => h q (List.mem_cons_of_mem p hq))]
      constructor
      · intro hx
        exact Or.inr hx
      · rintro (rfl | hx)
        · exact absurd rfl hp
        · exact hx

theorem mem_map_fst_incrCount (x k : CacheKey) (t : List (CacheKey × Nat))
    (h : x ∈ (incrCount k t).map Prod.fst) : x ∈ t.map Prod.fst ∨ x = k := by
  induction t with
  | nil =>
    simp [incrCount] at h
    exact Or.inr h
  | cons p ps ih =>
    by_cases hp : p.1 = k
    · simp only [incrCount, if_pos hp, List.map_cons, List.mem_cons] at h
      simp only [List.map_cons, List.mem_cons]
      rcases h with h | h
      · exact Or.inl (Or.inl h)
      · exact Or.inl (Or.inr h)
    · simp only [incrCount, if_neg hp, List.map_cons, List.mem_cons] at h
      simp only [List.map_cons, List.mem_cons]
      rcases h with h | h
      · exact Or.inl (Or.inl h)
      · rcases ih h with h2 | h2
        · exact Or.inl (Or.inr h2)
        · exact Or.inr h2

theorem posCounts_incrCount (k : CacheKey) (t : List (CacheKey × Nat)) (h : PosCounts t) :
    PosCounts (incrCount k t) := by
  induction t with
  | nil =>
    intro p hp
    simp [incrCount] at hp
    simp [hp]
  | cons q qs ih =>
    by_cases hq : q.1 = k
    · intro p hp
      simp only [incrCount, if_pos hq, List.mem_cons] at hp
      rcases hp with rfl | hp
      · simp
      · exact h p (List.mem_cons_of_mem q hp)
    · intro p hp
      simp only [incrCount, if_neg hq, List.mem_cons] at hp
      rcases hp with rfl | hp
      · exact h p (List.mem_cons_self p qs)
      · exact ih (fun r hr => h r (List.mem_cons_of_mem q hr)) p hp

theorem posCounts_of_sublist (t₁ t₂ : List (CacheKey × Nat)) (hs : t₁.Sublist t₂)
    (h : PosCounts t₂) : PosCounts t₁ :=
  fun p hp => h p (hs.subset hp)

theorem lfu_access_budget (s : LFU) (k : CacheKey) : ((s.access k).1).budget = s.budget := by
  simp only [LFU.access]
  split
  · split <;> rfl
  · rfl

theorem lfu_access_accesses (s : LFU) (k : CacheKey) :
    ((s.access k).1).accesses = s.accesses + 1 := by
  simp only [LFU.access]
  split
  · split <;> rfl
  · rfl

theorem lfu_access_hits (s : LFU) (k : CacheKey) :
    ((s.access k).1).hits = if s.mem k then s.hits + 1 else s.hits := by
  simp only [LFU.access]
  split
  · split <;> rfl
  · rfl

theorem LFU.access_table_length (s : LFU) (k : CacheKey)
    (h : s.frequency_counter.length ≤ s.budget) :
    ((s.access k).1).frequency_counter.length ≤ s.budget := by
  have hle := length_incrCount_le k s.frequency_counter
  simp only [LFU.access]
  split
  · next hlt =>
    split
    · next k0 c0 heq =>
      have hmem : k0 ∈ (incrCount k s.frequency_counter).map Prod.fst :=
        List.mem_map.mpr ⟨(k0, c0), minByCount_mem _ _ heq, rfl⟩
      have h2 := length_eraseKey_of_mem k0 _ hmem
      simp only
      omega
    · next heq =>
      have : incrCount k s.frequency_counter = [] := minByCount_eq_none _ heq
      exact absurd this (incrCount_ne_nil k s.frequency_counter)
  · next hnot =>
    simp only
    omega

theorem lfu_access_mem_subset (s : LFU) (k x : CacheKey)
    (hpos : PosCounts s.frequency_counter)
    (h : ((s.access k).1).mem x = true) : s.mem x = true ∨ x = k := by
  have hpos2 : PosCounts (incrCount k s.frequency_counter) :=
    posCounts_incrCount k _ hpos
  have key_step : x ∈ (incrCount k s.frequency_counter).map Prod.fst →
      s.mem x = true ∨ x = k := by
    intro hx
    rcases mem_map_fst_incrCount x k _ hx with hx | hx
    · exact Or.inl (by simpa [LFU.mem, decide_eq_true_iff] using
        (lookupCount_pos_iff x _ hpos).mpr hx)
    · exact Or.inr hx
  simp only [LFU.access] at h
  revert h
  split
  · split
    · next k0 c0 heq =>
      intro h
      simp only [LFU.mem, decide_eq_true_iff] at h
      have hposE : PosCounts (eraseKey k0 (incrCount k s.frequency_counter)) :=
        posCounts_of_sublist _ _ (eraseKey_sublist k0 _) hpos2
      have hx : x ∈ (eraseKey k0 (incrCount k s.frequency_counter)).map Prod.fst :=
        (lookupCount_pos_iff x _ hposE).mp h
      refine key_step ?_
      rcases List.mem_map.mp hx with ⟨q, hq, rfl⟩
      exact List.mem_map.mpr ⟨q, (eraseKey_sublist k0 _).subset hq, rfl⟩
    · next heq =>
      intro h
      simp only [LFU.mem, decide_eq_true_iff] at h
      exact key_step ((lookupCount_pos_iff x _ hpos2).mp h)
  · intro h
    simp only [LFU.mem, decide_eq_true_iff] at h
    exact key_step ((lookupCount_pos_iff x _ hpos2).mp h)

theorem LFU.access_posCounts (s : LFU) (k : CacheKey)
    (hpos : PosCounts s.frequency_counter) :
    PosCounts ((s.access k).1).frequency_counter := by
  have hpos2 : PosCounts (incrCount k s.frequency_counter) :=
    posCounts_incrCount k _ hpos
  simp only [LFU.access]
  split
  · split
    · next k0 c0 heq =>
      exact posCounts_of_sublist _ _ (eraseKey_sublist k0 _) hpos2
    · next heq => exact hpos2
  · exact hpos2

theorem lru_access_budget (s : LRU) (k : CacheKey) : ((s.access k).1).budget = s.budget := by
  simp only [LRU.access]
  split <;> rfl

theorem lru_access_accesses (s : LRU) (k : CacheKey) :
    ((s.access k).1).accesses = s.accesses + 1 := by
  simp only [LRU.access]
  split <;> rfl

theorem lru_access_hits (s : LRU) (k : CacheKey) :
    ((s.access k).1).hits = if s.mem k then s.hits + 1 else s.hits := by
  simp only [LRU.access]
  split <;> rfl

theorem LRU.access_list_length (s : LRU) (k : CacheKey)
    (h : s.recency_list.length ≤ s.budget) :
    ((s.access k).1).recency_list.length ≤ s.budget := by
  have he : (s.recency_list.erase k).length ≤ s.recency_list.length :=
    (List.erase_sublist k s.recency_list).length_le
  simp only [LRU.access]
  split
  · next hlt =>
    simp only [List.length_dropLast, List.length_cons]
    omega
  · next hnot =>
    simp only
    omega

theorem lru_access_mem_subset (s : LRU) (k x : CacheKey)
    (h : ((s.access k).1).mem x = true) : s.mem x = true ∨ x = k := by
  have key_step : x ∈ k :: s.recency_list.erase k → s.mem x = true ∨ x = k := by
    intro hx
    rcases List.mem_cons.mp hx with rfl | hx
    · exact Or.inr rfl
    · refine Or.inl ?_
      simpa [LRU.mem] using List.mem_of_mem_erase hx
  simp only [LRU.access] at h
  revert h
  split
  · next hlt =>
    intro h
    simp only [LRU.mem] at h
    have hx : x ∈ (k :: s.recency_list.erase k).dropLast := by
      simpa using h
    exact key_step (List.dropLast_sublist _ |>.subset hx)
  · next hnot =>
    intro h
    simp only [LRU.mem] at h
    exact key_step (by simpa using h)

theorem pushHistory_length (budget : Nat) (l : List CacheKey) (k : CacheKey)
    (hb : 1 ≤ budget) (h : l.length ≤ budget) :
    (pushHistory budget l k).length ≤ budget := by
  simp only [pushHistory]
  split
  · next hge =>
    simp only [List.length_cons, List.length_dropLast]
    omega
  · next hlt =>
    simp only [List.length_cons]
    omega

theorem LCR.update_weight_budget (c : ℚ) (s : LCR) (k : CacheKey) :
    (s.update_weight c k).budget = s.budget := rfl

theorem LCR.update_weight_arms (c : ℚ) (s : LCR) (k : CacheKey) :
    (s.update_weight c k).lfu_policy = s.lfu_policy ∧
    (s.update_weight c k).lru_policy = s.lru_policy ∧
    (s.update_weight c k).history_lfu = s.history_lfu ∧
    (s.update_weight c k).history_lru = s.history_lru ∧
    (s.update_weight c k).hits = s.hits := ⟨rfl, rfl, rfl, rfl, rfl⟩

theorem lcr_access_budget (c : ℚ) (coin : Bool) (s : LCR) (k : CacheKey) :
    ((LCR.access c coin s k).1).budget = s.budget := by
  simp only [LCR.access]
  repeat' split
  all_goals rfl

theorem lcr_access_accesses (c : ℚ) (coin : Bool) (s : LCR) (k : CacheKey) :
    ((LCR.access c coin s k).1).accesses = s.accesses + 1 := by
  simp only [LCR.access]
  repeat' split
  all_goals rfl

theorem lcr_access_hits (c : ℚ) (coin : Bool) (s : LCR) (k : CacheKey) :
    ((LCR.access c coin s k).1).hits = if s.mem k then s.hits + 1 else s.hits := by
  simp only [LCR.access]
  split
  · next h =>
    repeat' split
    all_goals rfl
  · next h =>
    repeat' split
    all_goals rfl

theorem LCR.access_sizeInv (c : ℚ) (coin : Bool) (s : LCR) (k : CacheKey)
    (h : s.SizeInv) : ((LCR.access c coin s k).1).SizeInv := by
  obtain ⟨hb, hbf, hbr, hlf, hlr, htab, hlist⟩ := h
  have htabA := LFU.access_table_length s.lfu_policy k (by rw [hbf]; exact htab)
  have hlistA := LRU.access_list_length s.lru_policy k (by rw [hbr]; exact hlist)
  have htabA' : ((s.lfu_policy.access k).1).frequency_counter.length ≤ s.budget :=
    le_of_le_of_eq htabA hbf
  have hlistA' : ((s.lru_policy.access k).1).recency_list.length ≤ s.budget :=
    le_of_le_of_eq hlistA hbr
  simp only [LCR.access, LCR.SizeInv]
  split
  · split
    · exact ⟨hb, (lfu_access_budget s.lfu_policy k).trans hbf, hbr, hlf, hlr, htabA', hlist⟩
    · split
      · exact ⟨hb, hbf, (lru_access_budget s.lru_policy k).trans hbr, hlf, hlr, htab, hlistA'⟩
      · exact ⟨hb, hbf, hbr, hlf, hlr, htab, hlist⟩
  · split
    · split
      · split
        · exact ⟨hb, hbf, (lru_access_budget s.lru_policy k).trans hbr, hlf, hlr, htab, hlistA'⟩
        · exact ⟨hb, hbf, (lru_access_budget s.lru_policy k).trans hbr, hlf,
            pushHistory_length _ _ _ hb hlr, htab, hlistA'⟩
      · exact ⟨hb, hbf, (lru_access_budget s.lru_policy k).trans hbr, hlf, hlr, htab, hlistA'⟩
    · split
      · split
        · exact ⟨hb, (lfu_access_budget s.lfu_policy k).trans hbf, hbr, hlf, hlr, htabA', hlist⟩
        · exact ⟨hb, (lfu_access_budget s.lfu_policy k).trans hbf, hbr,
            pushHistory_length _ _ _ hb hlf, hlr, htabA', hlist⟩
      · exact ⟨hb, (lfu_access_budget s.lfu_policy k).trans hbf, hbr, hlf, hlr, htabA', hlist⟩

theorem LCR.access_disjInv (c : ℚ) (coin : Bool) (s : LCR) (k : CacheKey)
    (h : s.DisjInv) : ((LCR.access c coin s k).1).DisjInv := by
  obtain ⟨hpos, hdisj⟩ := h
  have hposA := LFU.access_posCounts s.lfu_policy k hpos
  simp only [LCR.access, LCR.DisjInv]
  split
  · next hhit =>
    split
    · next hfmem =>
      refine ⟨hposA, ?_⟩
      rintro x ⟨hx1, hx2⟩
      rcases lfu_access_mem_subset s.lfu_policy k x hpos hx1 with hx | rfl
      · exact hdisj x ⟨hx, hx2⟩
      · exact hdisj x ⟨hfmem, hx2⟩
    · next hfmem =>
      split
      · next hrmem =>
        refine ⟨hpos, ?_⟩
        rintro x ⟨hx1, hx2⟩
        rcases lru_access_mem_subset s.lru_policy k x hx2 with hx | rfl
        · exact hdisj x ⟨hx1, hx⟩
        · exact hfmem hx1
      · exact ⟨hpos, hdisj⟩
  · next hmiss =>
    simp only [LCR.mem, Bool.or_eq_true, not_or, Bool.not_eq_true] at hmiss
    obtain ⟨hmf, hmr⟩ := hmiss
    split
    · have key : ∀ x, ¬(s.lfu_policy.mem x = true ∧
          ((s.lru_policy.access k).1).mem x = true) := by
        rintro x ⟨hx1, hx2⟩
        rcases lru_access_mem_subset s.lru_policy k x hx2 with hx | rfl
        · exact hdisj x ⟨hx1, hx⟩
        · rw [hmf] at hx1
          exact Bool.false_ne_true hx1
      split
      · split
        · exact ⟨hpos, key⟩
        · exact ⟨hpos, key⟩
      · exact ⟨hpos, key⟩
    · have key : ∀ x, ¬(((s.lfu_policy.access k).1).mem x = true ∧
          s.lru_policy.mem x = true) := by
        rintro x ⟨hx1, hx2⟩
        rcases lfu_access_mem_subset s.lfu_policy k x hpos hx1 with hx | rfl
        · exact hdisj x ⟨hx, hx2⟩
        · rw [hmr] at hx2
          exact Bool.false_ne_true hx2
      split
      · split
        · exact ⟨hposA, key⟩
        · exact ⟨hposA, key⟩
      · exact ⟨hposA, key⟩

/-- Renormalizing two strictly positive weights yields a pair in `(0, 1)`
that sums to exactly 1. -/
theorem normalize_pos (f r : ℚ) (hf : 0 < f) (hr : 0 < r) :
    0 < 1 - r / (r + f) ∧ 0 < r / (r + f) ∧ (1 - r / (r + f)) + r / (r + f) = 1 := by
  have hs : 0 < r + f := by linarith
  have h1 : r / (r + f) < 1 := by
    rw [div_lt_one hs]
    linarith
  have h2 : 0 < r / (r + f) := div_pos hr hs
  exact ⟨by linarith, h2, by ring⟩

theorem LCR.update_weight_weightInv (c : ℚ) (hc : 0 < c) (s : LCR) (k : CacheKey)
    (hf : 0 < s.w_lfu) (hr : 0 < s.w_lru) :
    0 < (s.update_weight c k).w_lfu ∧ 0 < (s.update_weight c k).w_lru ∧
    (s.update_weight c k).w_lfu + (s.update_weight c k).w_lru = 1 := by
  have hf' : 0 < (if s.history_lru.contains k then s.w_lfu * c else s.w_lfu) := by
    split
    · exact mul_pos hf hc
    · exact hf
  have hr' : 0 < (if s.history_lru.contains k then s.w_lru
      else if s.history_lfu.contains k then s.w_lru * c else s.w_lru) := by
    split
    · exact hr
    · split
      · exact mul_pos hr hc
      · exact hr
  obtain ⟨h1, h2, h3⟩ := normalize_pos _ _ hf' hr'
  exact ⟨h1, h2, h3⟩

theorem LCR.access_weightInv (c : ℚ) (hc : 0 < c) (coin : Bool) (s : LCR) (k : CacheKey)
    (h : s.WeightInv) : ((LCR.access c coin s k).1).WeightInv := by
  obtain ⟨hf, hr, hsum⟩ := h
  have hupd := LCR.update_weight_weightInv c hc s k hf hr
  simp only [LCR.access, LCR.WeightInv]
  repeat' split
  all_goals first
    | exact ⟨hf, hr, hsum⟩
    | exact hupd

theorem lfu_run_preserve (P : LFU → Prop) (hstep : ∀ s k, P s → P ((s.access k).1)) :
    ∀ (trace : List CacheKey) (s : LFU), P s → P ((s.run trace).1) := by
  intro trace
  induction trace with
  | nil => intro s hs; exact hs
  | cons k ks ih => intro s hs; exact ih _ (hstep s k hs)

theorem lru_run_preserve (P : LRU → Prop) (hstep : ∀ s k, P s → P ((s.access k).1)) :
    ∀ (trace : List CacheKey) (s : LRU), P s → P ((s.run trace).1) := by
  intro trace
  induction trace with
  | nil => intro s hs; exact hs
  | cons k ks ih => intro s hs; exact ih _ (hstep s k hs)

theorem lcr_run_preserve (c : ℚ) (P : LCR → Prop)
    (hstep : ∀ (coin : Bool) (s : LCR) (k : CacheKey), P s → P ((LCR.access c coin s k).1)) :
    ∀ (trace : List (CacheKey × Bool)) (s : LCR), P s → P (LCR.run c s trace) := by
  intro trace
  induction trace with
  | nil => intro s hs; exact hs
  | cons p ps ih => intro s hs; exact ih _ (hstep p.2 s p.1 hs)

theorem lfu_access_hits_le (s : LFU) (k : CacheKey) (h : s.hits ≤ s.accesses) :
    ((s.access k).1).hits ≤ ((s.access k).1).accesses := by
  rw [lfu_access_hits, lfu_access_accesses]
  split <;> omega

theorem lru_access_hits_le (s : LRU) (k : CacheKey) (h : s.hits ≤ s.accesses) :
    ((s.access k).1).hits ≤ ((s.access k).1).accesses := by
  rw [lru_access_hits, lru_access_accesses]
  split <;> omega

theorem lcr_access_hits_le (c : ℚ) (coin : Bool) (s : LCR) (k : CacheKey)
    (h : s.hits ≤ s.accesses) :
    ((LCR.access c coin s k).1).hits ≤ ((LCR.access c coin s k).1).accesses := by
  rw [lcr_access_hits, lcr_access_accesses]
  split <;> omega

theorem lfu_init_elim (b : Int) (s0 : LFU) (h : LFU.init b = some s0) :
    s0 = { budget := b.toNat, hits := 0, accesses := 0, frequency_counter := [] } := by
  simp only [LFU.init] at h
  split at h
  · exact (Option.some_inj.mp h).symm
  · exact absurd h (by simp)

theorem lru_init_elim (b : Int) (s0 : LRU) (h : LRU.init b = some s0) :
    s0 = { budget := b.toNat, hits := 0, accesses := 0, recency_list := [] } := by
  simp only [LRU.init] at h
  split at h
  · exact (Option.some_inj.mp h).symm
  · exact absurd h (by simp)

theorem lcr_init_elim (b : Int) (s0 : LCR) (h : LCR.init b = some s0) :
    s0 = { budget := b.toNat, hits := 0, accesses := 0,
           history_lfu := [], history_lru := [],
           lfu_policy := { budget := b.toNat, hits := 0, accesses := 0,
                           frequency_counter := [] },
           lru_policy := { budget := b.toNat, hits := 0, accesses := 0,
                           recency_list := [] },
           w_lfu := 1/2, w_lru := 1/2 } := by
  simp only [LCR.init] at h
  split at h
  · exact (Option.some_inj.mp h).symm
  · exact absurd h (by simp)

theorem LCR.init_pos (b : Int) (s0 : LCR) (h : LCR.init b = some s0) : 0 < b := by
  simp only [LCR.init] at h
  split at h
  · next hb => exact hb
  · exact absurd h (by simp)

/-- Claim C1: the spec requires `hitrate` to return `0.0` when `accesses == 0`,
but the code computes `hits * 100 / accesses` unguarded: with zero accesses
every freshly constructed policy raises `ZeroDivisionError` (modelled as
`none`) instead of returning `0.0`. -/
theorem hitrate_zero_division :
    (∀ hits : Nat, hitrateOf hits 0 = none) ∧
    (LFU.init 1).map LFU.hitrate = some none ∧
    (LRU.init 1).map LRU.hitrate = some none ∧
    (LCR.init 1).map LCR.hitrate = some none := by
  refine ⟨fun hits => rfl, rfl, rfl, rfl⟩

/-- Claim C3: for every policy type, construction succeeds exactly when the
budget is positive; `budget <= 0` trips the `assert budget > 0` and yields no
usable instance. -/
theorem init_succeeds_iff_positive_budget (b : Int) :
    ((LFU.init b).isSome ↔ 0 < b) ∧ ((LRU.init b).isSome ↔ 0 < b) ∧
    ((LCR.init b).isSome ↔ 0 < b) := by
  refine ⟨?_, ?_, ?_⟩
  · simp only [LFU.init]
    split
    · next h => simp [h]
    · next h => simp [h]
  · simp only [LRU.init]
    split
    · next h => simp [h]
    · next h => simp [h]
  · simp only [LCR.init]
    split
    · next h => simp [h]
    · next h => simp [h]

/-- Claim C9: the trace `a, b, a, c` on freshly constructed LFU and LRU
instances of budget 2 yields the eviction sequence
`[None, None, None, some b]` for both. -/
theorem lfu_lru_trace_abac :
    (LFU.init 2).map (fun s0 => (s0.run ["a", "b", "a", "c"]).2) =
      some [none, none, none, some "b"] ∧
    (LRU.init 2).map (fun s0 => (s0.run ["a", "b", "a", "c"]).2) =
      some [none, none, none, some "b"] := by
  constructor <;> rfl

/-- Claim C2 counterexample: budget-1 LCR freshly constructed, trace `a` then
`b` with tie-break coin `true` (LRU arm).  On the second access (a miss) the
delegated LRU arm evicts and returns `"a"` — visible in the updated arm state
and the history log — yet the top-level `access` returns `none`, because the
Python miss branch never returns `maybe_evicted`. -/
theorem lcr_miss_eviction_not_returned :
    LCR.init 1 = some lcrB1 ∧
    ((LCR.access 2 true lcrB1 "a").1.lru_policy.recency_list = ["a"]) ∧
    ((((LCR.access 2 true lcrB1 "a").1).lru_policy.access "b").2 = some "a") ∧
    ((LCR.access 2 true (LCR.access 2 true lcrB1 "a").1 "b").1.lru_policy =
      (((LCR.access 2 true lcrB1 "a").1).lru_policy.access "b").1) ∧
    ((LCR.access 2 true (LCR.access 2 true lcrB1 "a").1 "b").1.lfu_policy =
      ((LCR.access 2 true lcrB1 "a").1).lfu_policy) ∧
    ((LCR.access 2 true (LCR.access 2 true lcrB1 "a").1 "b").1.history_lru = ["a"]) ∧
    ((LCR.access 2 true (LCR.access 2 true lcrB1 "a").1 "b").2 = none) := by
  norm_num +decide [LCR.access, LCR.init, lcrB1, LCR.mem, LFU.mem, LRU.mem, lookupCount,
    LCR.update_weight, LCR.select_policy_and_history, LRU.access, LFU.access, incrCount,
    minByCount, minAcc, eraseKey, pushHistory, List.erase_cons, List.erase_nil,
    List.getLast?, List.dropLast]

/-- Claim C2 amended: the top-level `access` return value mirrors the delegated
arm only on the hit path; on the miss path it is always `none`, even when the
delegated arm evicted a key (the eviction is recorded solely in the arm's
history log and never propagated to the caller). -/
theorem lcr_access_return_value (c : ℚ) (coin : Bool) (s : LCR) (k : CacheKey) :
    (LCR.access c coin s k).2 =
      if s.lfu_policy.mem k then (s.lfu_policy.access k).2
      else if s.lru_policy.mem k then (s.lru_policy.access k).2
      else none := by
  simp only [LCR.access]
  split
  · next hhit =>
    split
    · next hf => simp [hf]
    · next hf =>
      split
      · next hr => simp [hf, hr]
      · next hr => simp [hf, hr]
  · next hmiss =>
    simp only [LCR.mem, Bool.or_eq_true, not_or, Bool.not_eq_true] at hmiss
    simp only [hmiss.1, hmiss.2, Bool.false_eq_true, if_false]
    repeat' split
    all_goals rfl

/-- Claim C4: for every policy, positive budget, and access sequence, the
resident structures never exceed `budget` entries after any access call: the
LFU frequency table, the LRU recency list, and inside LCR both eviction
histories and both arms' structures. -/
theorem resident_structures_within_budget (b : Int) (c : ℚ)
    (tr : List CacheKey) (trc : List (CacheKey × Bool)) :
    (∀ s0 : LFU, LFU.init b = some s0 →
      ((s0.run tr).1).frequency_counter.length ≤ b.toNat) ∧
    (∀ s0 : LRU, LRU.init b = some s0 →
      ((s0.run tr).1).recency_list.length ≤ b.toNat) ∧
    (∀ s0 : LCR, LCR.init b = some s0 →
      (LCR.run c s0 trc).history_lfu.length ≤ b.toNat ∧
      (LCR.run c s0 trc).history_lru.length ≤ b.toNat ∧
      (LCR.run c s0 trc).lfu_policy.frequency_counter.length ≤ b.toNat ∧
      (LCR.run c s0 trc).lru_policy.recency_list.length ≤ b.toNat) := by
  refine ⟨?_, ?_, ?_⟩
  · intro s0 h0
    have hP := lfu_run_preserve
      (fun s => s.frequency_counter.length ≤ s.budget ∧ s.budget = b.toNat)
      (fun s k hs => ⟨by rw [lfu_access_budget]; exact LFU.access_table_length s k hs.1,
        (lfu_access_budget s k).trans hs.2⟩) tr s0 ?_
    · rcases hP with ⟨h1, h2⟩
      rw [h2] at h1
      exact h1
    · rw [lfu_init_elim b s0 h0]
      exact ⟨by simp, rfl⟩
  · intro s0 h0
    have hP := lru_run_preserve
      (fun s => s.recency_list.length ≤ s.budget ∧ s.budget = b.toNat)
      (fun s k hs => ⟨by rw [lru_access_budget]; exact LRU.access_list_length s k hs.1,
        (lru_access_budget s k).trans hs.2⟩) tr s0 ?_
    · rcases hP with ⟨h1, h2⟩
      rw [h2] at h1
      exact h1
    · rw [lru_init_elim b s0 h0]
      exact ⟨by simp, rfl⟩
  · intro s0 h0
    have hb0 : 0 < b := LCR.init_pos b s0 h0
    have hP := lcr_run_preserve c (fun s => s.SizeInv ∧ s.budget = b.toNat)
      (fun coin s k hs => ⟨LCR.access_sizeInv c coin s k hs.1,
        (lcr_access_budget c coin s k).trans hs.2⟩) trc s0 ?_
    · obtain ⟨⟨hb, h2, h3, h4, h5, h6, h7⟩, heq⟩ := hP
      rw [heq] at h4 h5 h6 h7
      exact ⟨h4, h5, h6, h7⟩
    · rw [lcr_init_elim b s0 h0]
      refine ⟨⟨?_, rfl, rfl, by simp, by simp, by simp, by simp⟩, rfl⟩
      show 1 ≤ b.toNat
      omega

/-- Claim C4 witness: the bound instantiated at budget 1 with concrete traces. -/
theorem resident_structures_within_budget_witness :
    ((((⟨1, 0, 0, []⟩ : LFU).run ["a", "b"]).1).frequency_counter.length ≤ (1 : Int).toNat) ∧
    ((((⟨1, 0, 0, []⟩ : LRU).run ["a", "b"]).1).recency_list.length ≤ (1 : Int).toNat) ∧
    ((LCR.run 2 lcrB1 [("a", true), ("b", true)]).history_lfu.length ≤ (1 : Int).toNat ∧
     (LCR.run 2 lcrB1 [("a", true), ("b", true)]).history_lru.length ≤ (1 : Int).toNat ∧
     (LCR.run 2 lcrB1 [("a", true), ("b", true)]).lfu_policy.frequency_counter.length
        ≤ (1 : Int).toNat ∧
     (LCR.run 2 lcrB1 [("a", true), ("b", true)]).lru_policy.recency_list.length
        ≤ (1 : Int).toNat) :=
  ⟨(resident_structures_within_budget 1 2 ["a", "b"] [("a", true), ("b", true)]).1 _ rfl,
   (resident_structures_within_budget 1 2 ["a", "b"] [("a", true), ("b", true)]).2.1 _ rfl,
   (resident_structures_within_budget 1 2 ["a", "b"] [("a", true), ("b", true)]).2.2 lcrB1 rfl⟩

/-- Claim C5: every `access` call increments the instance's `accesses` counter
by exactly 1, and `hits <= accesses` holds after every access on every policy
run from construction. -/
theorem accounting_counters (b : Int) (c : ℚ) (tr : List CacheKey)
    (trc : List (CacheKey × Bool)) :
    (∀ (s : LFU) (k : CacheKey), ((s.access k).1).accesses = s.accesses + 1) ∧
    (∀ (s : LRU) (k : CacheKey), ((s.access k).1).accesses = s.accesses + 1) ∧
    (∀ (coin : Bool) (s : LCR) (k : CacheKey),
      ((LCR.access c coin s k).1).accesses = s.accesses + 1) ∧
    (∀ s0 : LFU, LFU.init b = some s0 →
      ((s0.run tr).1).hits ≤ ((s0.run tr).1).accesses) ∧
    (∀ s0 : LRU, LRU.init b = some s0 →
      ((s0.run tr).1).hits ≤ ((s0.run tr).1).accesses) ∧
    (∀ s0 : LCR, LCR.init b = some s0 →
      (LCR.run c s0 trc).hits ≤ (LCR.run c s0 trc).accesses) := by
  refine ⟨lfu_access_accesses, lru_access_accesses, lcr_access_accesses c, ?_, ?_, ?_⟩
  · intro s0 h0
    refine lfu_run_preserve (fun s => s.hits ≤ s.accesses) lfu_access_hits_le tr s0 ?_
    rw [lfu_init_elim b s0 h0]
  · intro s0 h0
    refine lru_run_preserve (fun s => s.hits ≤ s.accesses) lru_access_hits_le tr s0 ?_
    rw [lru_init_elim b s0 h0]
  · intro s0 h0
    refine lcr_run_preserve c (fun s => s.hits ≤ s.accesses)
      (lcr_access_hits_le c) trc s0 ?_
    rw [lcr_init_elim b s0 h0]

/-- Claim C5 witness: the counters instantiated at budget 1 with a concrete
state and trace. -/
theorem accounting_counters_witness :
    ((((⟨1, 0, 0, []⟩ : LFU).access "a").1).accesses = 0 + 1) ∧
    ((LCR.run 2 lcrB1 [("a", true)]).hits ≤ (LCR.run 2 lcrB1 [("a", true)]).accesses) :=
  ⟨(accounting_counters 1 2 ["a"] [("a", true)]).1 ⟨1, 0, 0, []⟩ "a",
   (accounting_counters 1 2 ["a"] [("a", true)]).2.2.2.2.2 lcrB1 rfl⟩

/-- Claim C6: whenever an LFU access makes the table exceed the budget, the
evicted key is an entry of minimal count in the (insertion-ordered)
post-increment table, every entry inserted before it has a strictly larger
count (tie-break = earliest insertion among the minimal counts), and exactly
that entry is removed from the table. -/
theorem lfu_evicts_earliest_minimum (s : LFU) (key k : CacheKey)
    (h : (s.access key).2 = some k) :
    s.budget < (incrCount key s.frequency_counter).length ∧
    ∃ cnt l₁ l₂,
      incrCount key s.frequency_counter = l₁ ++ (k, cnt) :: l₂ ∧
      (∀ p ∈ incrCount key s.frequency_counter, cnt ≤ p.2) ∧
      (∀ p ∈ l₁, cnt < p.2) ∧
      ((s.access key).1).frequency_counter =
        eraseKey k (incrCount key s.frequency_counter) := by
  revert h
  simp only [LFU.access]
  split
  · next hlt =>
    split
    · next k0 c0 heq =>
      intro h
      have hk : k0 = k := Option.some_inj.mp h
      subst hk
      obtain ⟨⟨l₁, l₂, hsplit, hbefore⟩, hall⟩ := minByCount_min _ _ heq
      exact ⟨hlt, c0, l₁, l₂, hsplit, hall, hbefore, rfl⟩
    · next heq =>
      intro h
      exact absurd h (by simp)
  · next hlt =>
    intro h
    exact absurd h (by simp)

/-- Claim C6 witness: with budget 2 and table `[(a, 2), (b, 1)]`, accessing `c`
evicts `b`, the earliest minimal-count entry. -/
theorem lfu_evicts_earliest_minimum_witness :
    (lfuSampleEvict.access "c").2 = some "b" ∧
    (lfuSampleEvict.budget < (incrCount "c" lfuSampleEvict.frequency_counter).length ∧
     ∃ cnt l₁ l₂,
       incrCount "c" lfuSampleEvict.frequency_counter = l₁ ++ (("b" : CacheKey), cnt) :: l₂ ∧
       (∀ p ∈ incrCount "c" lfuSampleEvict.frequency_counter, cnt ≤ p.2) ∧
       (∀ p ∈ l₁, cnt < p.2) ∧
       ((lfuSampleEvict.access "c").1).frequency_counter =
         eraseKey "b" (incrCount "c" lfuSampleEvict.frequency_counter)) :=
  ⟨by decide, lfu_evicts_earliest_minimum lfuSampleEvict "c" "b" (by decide)⟩

/-- Claim C7: on every miss the weight update runs exactly as specified —
regret-multiply by the `exp(0.45)` constant, then renormalize (captured by the
spec-side `updateWeightSpec`) — and it runs before arm selection: the
delegated arm is the one selected from the already-updated weights.  On the
hit path no weight update occurs. -/
theorem miss_path_weight_update (c : ℚ) (coin : Bool) (s : LCR) (key : CacheKey) :
    (((s.update_weight c key).w_lfu, (s.update_weight c key).w_lru) =
      updateWeightSpec c key s.history_lfu s.history_lru s.w_lfu s.w_lru) ∧
    (s.mem key = false →
      (((LCR.access c coin s key).1).w_lfu, ((LCR.access c coin s key).1).w_lru) =
        updateWeightSpec c key s.history_lfu s.history_lru s.w_lfu s.w_lru) ∧
    (s.mem key = false →
      (((LCR.access c coin s key).1).lru_policy, ((LCR.access c coin s key).1).lfu_policy) =
        (match LCR.select_policy_and_history coin
            { s.update_weight c key with accesses := s.accesses + 1 } with
         | Arm.lru => ((s.lru_policy.access key).1, s.lfu_policy)
         | Arm.lfu => (s.lru_policy, (s.lfu_policy.access key).1))) ∧
    (s.mem key = true →
      ((LCR.access c coin s key).1).w_lfu = s.w_lfu ∧
      ((LCR.access c coin s key).1).w_lru = s.w_lru) := by
  have h1 : ((s.update_weight c key).w_lfu, (s.update_weight c key).w_lru) =
      updateWeightSpec c key s.history_lfu s.history_lru s.w_lfu s.w_lru := by
    by_cases hru : key ∈ s.history_lru
    · simp [LCR.update_weight, updateWeightSpec, hru]
    · by_cases hfu : key ∈ s.history_lfu
      · simp [LCR.update_weight, updateWeightSpec, hru, hfu]
      · simp [LCR.update_weight, updateWeightSpec, hru, hfu]
  refine ⟨h1, ?_, ?_, ?_⟩
  · intro hm
    simp only [LCR.access, hm, Bool.false_eq_true, if_false]
    rw [← h1]
    repeat' split
    all_goals rfl
  · intro hm
    simp only [LCR.access, hm, Bool.false_eq_true, if_false]
    split
    · next heq =>
      repeat' split
      all_goals simp only [heq]
      all_goals rfl
    · next heq =>
      repeat' split
      all_goals simp only [heq]
      all_goals rfl
  · intro hm
    simp only [LCR.access]
    split
    · next hhit =>
      repeat' split
      all_goals exact ⟨rfl, rfl⟩
    · next hmiss => exact absurd hm hmiss

/-- Claim C7 witness: from a state whose `history_lru` contains the missed key
`x`, the update multiplies `w_lfu` by the constant and renormalizes, before the
arm is selected. -/
theorem miss_path_weight_update_witness :
    ((lcrSampleHist.update_weight 2 "x").w_lfu, (lcrSampleHist.update_weight 2 "x").w_lru) =
      updateWeightSpec 2 "x" [] ["x"] (1/2) (1/2) ∧
    lcrSampleHist.mem "x" = false ∧
    (((LCR.access 2 true lcrSampleHist "x").1).w_lfu,
        ((LCR.access 2 true lcrSampleHist "x").1).w_lru) =
      updateWeightSpec 2 "x" [] ["x"] (1/2) (1/2) ∧
    lcrSampleHist.mem "b" = true ∧
    (((LCR.access 2 true lcrSampleHist "b").1).w_lfu = lcrSampleHist.w_lfu ∧
     ((LCR.access 2 true lcrSampleHist "b").1).w_lru = lcrSampleHist.w_lru) :=
  ⟨(miss_path_weight_update 2 true lcrSampleHist "x").1, by decide,
   (miss_path_weight_update 2 true lcrSampleHist "x").2.1 (by decide), by decide,
   (miss_path_weight_update 2 true lcrSampleHist "b").2.2.2 (by decide)⟩

/-- Claim C8: with the positive constant `c` modelling `exp(0.45)`, the LCR
weights satisfy `w_lfu + w_lru = 1` exactly (the exact-rational reading of
"within floating tolerance") and both lie in `[0, 1]`, after construction and
after every access of any sequence. -/
theorem weights_normalized (c : ℚ) (hc : 0 < c) (b : Int) (s0 : LCR)
    (h0 : LCR.init b = some s0) (trace : List (CacheKey × Bool)) :
    (s0.w_lfu + s0.w_lru = 1 ∧
      0 ≤ s0.w_lfu ∧ s0.w_lfu ≤ 1 ∧ 0 ≤ s0.w_lru ∧ s0.w_lru ≤ 1) ∧
    ((LCR.run c s0 trace).w_lfu + (LCR.run c s0 trace).w_lru = 1 ∧
      0 ≤ (LCR.run c s0 trace).w_lfu ∧ (LCR.run c s0 trace).w_lfu ≤ 1 ∧
      0 ≤ (LCR.run c s0 trace).w_lru ∧ (LCR.run c s0 trace).w_lru ≤ 1) := by
  have hinv0 : s0.WeightInv := by
    rw [lcr_init_elim b s0 h0]
    unfold LCR.WeightInv
    norm_num
  have hinv : (LCR.run c s0 trace).WeightInv :=
    lcr_run_preserve c LCR.WeightInv
      (fun coin s k hs => LCR.access_weightInv c hc coin s k hs) trace s0 hinv0
  have conv : ∀ t : LCR, t.WeightInv →
      t.w_lfu + t.w_lru = 1 ∧ 0 ≤ t.w_lfu ∧ t.w_lfu ≤ 1 ∧ 0 ≤ t.w_lru ∧ t.w_lru ≤ 1 := by
    rintro t ⟨hf, hr, hsum⟩
    exact ⟨hsum, le_of_lt hf, by linarith, le_of_lt hr, by linarith⟩
  exact ⟨conv s0 hinv0, conv _ hinv⟩

/-- Claim C8 witness: the invariant instantiated at budget 1, constant 2, and a
one-access trace. -/
theorem weights_normalized_witness :
    (lcrB1.w_lfu + lcrB1.w_lru = 1 ∧
      0 ≤ lcrB1.w_lfu ∧ lcrB1.w_lfu ≤ 1 ∧ 0 ≤ lcrB1.w_lru ∧ lcrB1.w_lru ≤ 1) ∧
    ((LCR.run 2 lcrB1 [("a", true)]).w_lfu + (LCR.run 2 lcrB1 [("a", true)]).w_lru = 1 ∧
      0 ≤ (LCR.run 2 lcrB1 [("a", true)]).w_lfu ∧
      (LCR.run 2 lcrB1 [("a", true)]).w_lfu ≤ 1 ∧
      0 ≤ (LCR.run 2 lcrB1 [("a", true)]).w_lru ∧
      (LCR.run 2 lcrB1 [("a", true)]).w_lru ≤ 1) :=
  weights_normalized 2 (by norm_num) 1 lcrB1 rfl [("a", true)]

/-- Claim C10: for every positive budget, access sequence, and resolution of
the random tie-break, the two LCR arms hold disjoint key sets after every
access: no key is ever simultaneously present in the frequency table and the
recency list, so the spec's both-arms hit case never arises. -/
theorem lcr_arms_disjoint (c : ℚ) (b : Int) (s0 : LCR) (h0 : LCR.init b = some s0)
    (trace : List (CacheKey × Bool)) (x : CacheKey) :
    ¬((LCR.run c s0 trace).lfu_policy.mem x = true ∧
      (LCR.run c s0 trace).lru_policy.mem x = true) := by
  have hinv0 : s0.DisjInv := by
    rw [lcr_init_elim b s0 h0]
    unfold LCR.DisjInv
    constructor
    · intro p hp
      simp at hp
    · rintro y ⟨hy1, hy2⟩
      simp [LFU.mem, lookupCount] at hy1
  have hinv := lcr_run_preserve c LCR.DisjInv (LCR.access_disjInv c) trace s0 hinv0
  exact hinv.2 x

/-- Claim C10 witness: disjointness instantiated at budget 1 after one access. -/
theorem lcr_arms_disjoint_witness :
    ¬((LCR.run 2 lcrB1 [("a", true)]).lfu_policy.mem "a" = true ∧
      (LCR.run 2 lcrB1 [("a", true)]).lru_policy.mem "a" = true) :=
  lcr_arms_disjoint 2 1 lcrB1 rfl [("a", true)] "a"
